/-
Verification of the resource-allocation optimization core of the
`sic-ecuador-2025-proyectos` repository (project "ANÁLISIS DE LA DEMANDA
ELÉCTRICA…", files `src/algorithms/dynamic_programmig.py` and
`src/algorithms/greedy.py`).

The Python code is shallowly embedded: Python ints become `ℤ` (or `ℕ` for
loop counters produced by `range`), Python `float` results of `/` become
exact `ℚ` (divisions in the source are only used on integer inputs), the
`float('inf')` initializer of minimization loops becomes `⊤ : WithTop _`,
and the runtime errors the code can actually raise (`KeyError`,
`IndexError`, `ZeroDivisionError`) become an `Except PyErr` result.
The capacity planner's two cost helpers (`construction_cost`,
`operational_cost`) use floating-point exponentiation (`** 1.5`), whose
bit-exact values are irrelevant to every claim proved here; they are
therefore kept as parameters of the embedding (a `CostModel` record), and
all theorems about the planner hold for every instantiation.
-/
import Mathlib

/-- Runtime errors the embedded Python code can raise. -/
inductive PyErr where
  | keyError : PyErr
  | indexError : PyErr
  | zeroDivisionError : PyErr
deriving DecidableEq, Repr

/-- Monadic map over a list in `Except`, mirroring a Python `for` loop that
may raise on each iteration (left-to-right, stops at the first error). -/
def exList {α β : Type} (f : α → Except PyErr β) : List α → Except PyErr (List β)
  | [] => pure []
  | x :: xs => do
      let y ← f x
      let ys ← exList f xs
      pure (y :: ys)

/-- Monadic fold over a list in `Except`, mirroring a Python `for` loop
that threads an accumulator and may raise on each iteration. -/
def exFold {α β : Type} (f : β → α → Except PyErr β) (init : β) : List α → Except PyErr β
  | [] => pure init
  | x :: xs => do
      let b ← f init x
      exFold f b xs

/-- Python list indexing `l[i]` for a non-negative index: `IndexError`
when out of range. -/
def pyIdx (l : List ℤ) (i : ℕ) : Except PyErr ℤ :=
  match l.get? i with
  | some v => pure v
  | none => .error .indexError

/-- Python true division `a / b`: `ZeroDivisionError` on a zero divisor
(the source divides integers, producing floats; modeled exactly in `ℚ`). -/
def pyDiv (a b : ℚ) : Except PyErr ℚ :=
  if b = 0 then .error .zeroDivisionError else pure (a / b)

/-! ## ProjectSelector: `knapsack_energy_projects` / `optimize_energy_projects`

A project is the tuple `(costo, beneficio, nombre)` (after
`optimize_energy_projects` drops the `tipo` component); the input tuples
are `(costo, beneficio, nombre, tipo)`. -/

abbrev Proj3 := ℤ × ℤ × String
abbrev Proj4 := ℤ × ℤ × String × String

/-- `DynamicProgrammingOptimizer.knapsack_energy_projects(budget,
project_index, projects_tuple)`.  The recursion is structural on
`project_index`; the projects tuple is passed first so it stays fixed.
`projects[project_index - 1]` is total in the embedding (`getD`), matching
the source where the index never exceeds the tuple length. -/
def knapsack_energy_projects (ps : List Proj3) : ℤ → ℕ → ℤ × List String
  | _, 0 => (0, [])
  | budget, idx + 1 =>
      if budget = 0 then (0, [])
      else
        let t := ps.getD idx (0, 0, "")
        if t.1 > budget then knapsack_energy_projects ps budget idx
        else
          let wo := knapsack_energy_projects ps budget idx
          let wi := knapsack_energy_projects ps (budget - t.1) idx
          if wi.1 + t.2.1 > wo.1 then (wi.1 + t.2.1, wi.2 ++ [t.2.2]) else wo

/-- One entry of `selected_projects` in the selector's result. -/
structure SelDetail where
  nombre : String
  tipo : String
  costo : ℤ
  beneficio : ℤ
  roi : ℚ
deriving DecidableEq, Repr

/-- Result record of `optimize_energy_projects`. -/
structure SelectionResult where
  selected_projects : List SelDetail
  total_benefit : ℤ
  total_cost : ℤ
  budget_used : ℚ
  remaining_budget : ℤ
  avg_roi : ℚ
  algorithm : String
deriving DecidableEq, Repr

/-- `DynamicProgrammingOptimizer.optimize_energy_projects(projects,
total_budget)`: runs the knapsack and reconstructs each selected name by
scanning the original project list for the first name match. -/
def optimize_energy_projects (projects : List Proj4) (total_budget : ℤ) :
    Except PyErr SelectionResult :=
  let projects_tuple : List Proj3 := projects.map (fun q => (q.1, q.2.1, q.2.2.1))
  let kn := knapsack_energy_projects projects_tuple total_budget projects.length
  let details : List SelDetail := kn.2.filterMap (fun nm =>
    (projects.find? (fun q => q.2.2.1 == nm)).map (fun q =>
      ⟨q.2.2.1, q.2.2.2, q.1, q.2.1, if q.1 > 0 then (q.2.1 : ℚ) / (q.1 : ℚ) else 0⟩))
  let total_cost : ℤ := (details.map (fun d => d.costo)).sum
  do
    let bu ← pyDiv (total_cost : ℚ) (total_budget : ℚ)
    pure { selected_projects := details
           total_benefit := kn.1
           total_cost := total_cost
           budget_used := bu * 100
           remaining_budget := total_budget - total_cost
           avg_roi := if total_cost > 0 then (kn.1 : ℚ) / (total_cost : ℚ) else 0
           algorithm := "dynamic_programming_knapsack" }

/-! Brute-force specification side for the knapsack claims. -/

/-- Total cost of a list of project triples. -/
def costSum (l : List Proj3) : ℤ := (l.map (fun t => t.1)).sum

/-- Total benefit of a list of project triples. -/
def benSum (l : List Proj3) : ℤ := (l.map (fun t => t.2.1)).sum

/-- Modelled from the spec: the brute-force optimum — the maximum total
benefit over all subsets of `items` whose total cost is within `budget`.
The empty subset is always among the candidates, so for `0 ≤ budget` the
fold's base `0` is itself a candidate value. -/
def bruteBest (budget : ℤ) (items : List Proj3) : ℤ :=
  (((items.sublists.filter (fun s => decide (costSum s ≤ budget))).map benSum).foldr max 0)

/-! ## CapacityPlanner: `optimize_capacity_planning`

The DP dictionary `dp[(period, capacity)]` / `decisions[(period, capacity)]`
is represented as a list of per-period rows (row index = period, cell index
= capacity); a cell holds the pair (minimal cost, stored decision).  Keys
are populated exactly in source iteration order, so a `(p, c)` key is
present iff `p` indexes a row and `c` indexes a cell of it. -/

/-- The two floating-point cost helpers defined inside
`optimize_capacity_planning` (`construction_cost`, `operational_cost`),
kept parametric; see the header comment. -/
structure CostModel where
  construction_cost : ℤ → ℚ
  operational_cost : ℤ → ℤ → ℚ

/-- A trivial all-zero cost model used to instantiate parametric theorems
on concrete runs. -/
def czero : CostModel := ⟨fun _ => 0, fun _ _ => 0⟩

/-- One entry of the reconstructed `optimal_plan`. -/
structure PlanEntry where
  period : ℕ
  total_capacity : ℤ
  expansion : ℤ
  demand : ℤ
  construction_cost : ℚ
  operational_cost : ℚ
deriving DecidableEq, Repr

/-- Result record of `optimize_capacity_planning`. -/
structure CapacityPlanResult where
  optimal_plan : List PlanEntry
  total_cost : WithTop ℚ
  final_capacity : ℕ
  dp_table_size : ℕ
  algorithm : String
deriving DecidableEq, Repr

/-- `range(max_capacity + 1)`: the discretized capacity axis (empty when
`max_capacity < 0`, as in Python). -/
def capRange (max_capacity : ℤ) : List ℕ := List.range (max_capacity + 1).toNat

/-- Period-0 initialization: `dp[(0, cap)] = construction_cost(cap) +
operational_cost(cap, demand_forecast[0])`, `decisions[(0, cap)] = cap`. -/
def initRow (cm : CostModel) (demand : List ℤ) (max_capacity : ℤ) :
    Except PyErr (List (WithTop ℚ × ℕ)) :=
  exList (fun (cap : ℕ) => do
      let d0 ← pyIdx demand 0
      pure (((cm.construction_cost (cap : ℤ) + cm.operational_cost (cap : ℤ) d0 : ℚ) : WithTop ℚ), cap))
    (capRange max_capacity)

/-- The inner minimization for `dp[(period, cap)]`: try every
`prev_cap ≤ cap` (skipping keys absent from the previous row), starting
from `(inf, 0)` and updating on a strict improvement. -/
def fillCell (cm : CostModel) (demand : List ℤ) (prevRow : List (WithTop ℚ × ℕ))
    (period cap : ℕ) : Except PyErr (WithTop ℚ × ℕ) :=
  exFold (fun acc prev_cap =>
      match prevRow.get? prev_cap with
      | none => pure acc
      | some pcell => do
          let expansion_cost : ℚ := cm.construction_cost ((cap : ℤ) - (prev_cap : ℤ))
          let d ← pyIdx demand period
          let op_cost : ℚ := cm.operational_cost (cap : ℤ) d
          let total : WithTop ℚ := pcell.1 + (expansion_cost : WithTop ℚ) + (op_cost : WithTop ℚ)
          pure (if total < acc.1 then (total, prev_cap) else acc))
    ((⊤ : WithTop ℚ), 0)
    (List.range (cap + 1))

/-- Builds all DP rows: the period-0 row, then one row per period in
`range(1, time_periods)`, each cell via `fillCell` against the previous
row. -/
def dpRows (cm : CostModel) (time_periods max_capacity : ℤ) (demand : List ℤ) :
    Except PyErr (List (List (WithTop ℚ × ℕ))) := do
  let row0 ← initRow cm demand max_capacity
  let st ← exFold (fun (st : List (List (WithTop ℚ × ℕ)) × List (WithTop ℚ × ℕ)) period => do
      let newRow ← exList (fun cap => fillCell cm demand st.2 period cap) (capRange max_capacity)
      pure (st.1 ++ [newRow], newRow))
    ([row0], row0)
    (List.range' 1 (time_periods - 1).toNat)
  pure st.1

/-- Dictionary lookup `dp[(p, cap)]` / `decisions[(p, cap)]` by direct
indexing: `KeyError` when the key was never written (negative period,
period beyond the built rows, or capacity beyond the row). -/
def dictGet (rows : List (List (WithTop ℚ × ℕ))) (p : ℤ) (cap : ℕ) :
    Except PyErr (WithTop ℚ × ℕ) :=
  if p < 0 then .error .keyError
  else
    match rows.get? p.toNat with
    | none => .error .keyError
    | some row =>
        match row.get? cap with
        | none => .error .keyError
        | some cell => pure cell

/-- Chooses the terminal capacity: scan `cap in range(max_capacity + 1)`
keeping the strictly smallest `dp[(time_periods - 1, cap)]`, starting from
`(inf, 0)`. -/
def finalSel (rows : List (List (WithTop ℚ × ℕ))) (time_periods max_capacity : ℤ) :
    Except PyErr (WithTop ℚ × ℕ) :=
  exFold (fun acc cap => do
      let cell ← dictGet rows (time_periods - 1) cap
      pure (if cell.1 < acc.1 then (cell.1, cap) else acc))
    ((⊤ : WithTop ℚ), 0)
    (capRange max_capacity)

/-- The backtracking `while current_period >= 0` loop, producing plan
entries from the current period down to period 0 (the caller reverses).
At period 0 the recorded `total_capacity` is `current_capacity +
expansion` with both equal to the remaining capacity (the source's
period-0 duplication, later overwritten by `recompute`); at later periods
`current_capacity` is first rewound to the stored decision. -/
def reconstruct (cm : CostModel) (demand : List ℤ)
    (rows : List (List (WithTop ℚ × ℕ))) : ℕ → ℕ → Except PyErr (List PlanEntry)
  | 0, c => do
      let d ← pyIdx demand 0
      pure [{ period := 0
              total_capacity := (c : ℤ) + (c : ℤ)
              expansion := (c : ℤ)
              demand := d
              construction_cost := cm.construction_cost (c : ℤ)
              operational_cost := cm.operational_cost ((c : ℤ) + (c : ℤ)) d }]
  | p + 1, c => do
      let cell ← dictGet rows ((p : ℤ) + 1) c
      let prev := cell.2
      let d ← pyIdx demand (p + 1)
      let rest ← reconstruct cm demand rows p prev
      pure ({ period := p + 1
              total_capacity := (prev : ℤ) + ((c : ℤ) - (prev : ℤ))
              expansion := (c : ℤ) - (prev : ℤ)
              demand := d
              construction_cost := cm.construction_cost ((c : ℤ) - (prev : ℤ))
              operational_cost := cm.operational_cost ((prev : ℤ) + ((c : ℤ) - (prev : ℤ))) d } :: rest)

/-- The final fix-up loop: overwrite each entry's `total_capacity` with
the running sum of expansions. -/
def recompute (acc : ℤ) : List PlanEntry → List PlanEntry
  | [] => []
  | e :: rest =>
      { e with total_capacity := acc + e.expansion } :: recompute (acc + e.expansion) rest

/-- `DynamicProgrammingOptimizer.optimize_capacity_planning(time_periods,
max_capacity, demand_forecast)`. -/
def optimize_capacity_planning (cm : CostModel) (time_periods max_capacity : ℤ)
    (demand_forecast : List ℤ) : Except PyErr CapacityPlanResult := do
  let rows ← dpRows cm time_periods max_capacity demand_forecast
  let fin ← finalSel rows time_periods max_capacity
  let plan0 ←
    if time_periods - 1 < 0 then pure []
    else reconstruct cm demand_forecast rows (time_periods - 1).toNat fin.2
  let plan := recompute 0 plan0.reverse
  pure { optimal_plan := plan
         total_cost := fin.1
         final_capacity := fin.2
         dp_table_size := (rows.map List.length).sum
         algorithm := "dynamic_programming_capacity" }

/-! ## MaintenanceScheduler: `optimize_maintenance_schedule`

The tables `dp[(eq_idx, t, state)]` / `decisions[(eq_idx, t, state)]` are
independent per equipment unit and depend on the unit only through its
cost base rate, so they are represented per unit as a list of per-period
rows (row index = t, cell index = health state, 5 cells per row); a cell
holds the pair (cost-to-go, recorded action).  Nothing in the scheduler
can raise, so the embedding is a total function. -/

/-- The two maintenance actions (`'mantener'` / `'no_mantener'`). -/
inductive MAction where
  | mantener : MAction
  | no_mantener : MAction
deriving DecidableEq, Repr

/-- Number of health states (0=new … 4=critical). -/
def states : ℕ := 5

/-- `degradation_prob(current_state, action)`: the deterministic one-step
health transition, saturating at the ends of `[0, states-1]`. -/
def degradation_prob (current_state : ℤ) (action : MAction) : ℤ :=
  match action with
  | .mantener => max 0 (current_state - 1)
  | .no_mantener => min ((states : ℤ) - 1) (current_state + 1)

/-- `cost_function(state, action, equipment_type)` with the base rate
already looked up for the unit's type. -/
def cost_function (state : ℤ) (action : MAction) (base_cost : ℤ) : ℤ :=
  match action with
  | .mantener => base_cost * (state + 1)
  | .no_mantener => state * 200

/-- `maintenance_costs.get(equipment_type, 1000)`. -/
def baseRate (maintenance_costs : List (String × ℤ)) (equipment_type : String) : ℤ :=
  ((maintenance_costs.find? (fun kv => kv.1 == equipment_type)).map (fun kv => kv.2)).getD 1000

/-- `dp.get((eq_idx, t + 1, next_state), 0)` against the already-built
next row: present iff the state key is one of the written `0 ≤ s < 5`. -/
def futureCost (next : List (ℤ × MAction)) (next_state : ℤ) : ℤ :=
  if 0 ≤ next_state ∧ next_state.toNat < next.length then (next.getD next_state.toNat (0, .no_mantener)).1
  else 0

/-- One backward step: given row `t + 1`, build row `t`.  For each state,
both actions are tried in source order (`mantener` first) starting from
`(inf, 'no_mantener')`, updating on a strict improvement. -/
def mRow (base_cost : ℤ) (next : List (ℤ × MAction)) : List (ℤ × MAction) :=
  (List.range states).map (fun (s : ℕ) =>
    let best := [MAction.mantener, MAction.no_mantener].foldl
      (fun (acc : WithTop ℤ × MAction) action =>
        let immediate_cost := cost_function (s : ℤ) action base_cost
        let next_state := degradation_prob (s : ℤ) action
        let total_cost : WithTop ℤ := ((immediate_cost + futureCost next next_state : ℤ) : WithTop ℤ)
        if total_cost < acc.1 then (total_cost, action) else acc)
      ((⊤ : WithTop ℤ), .no_mantener)
    ((best.1.untop' 0), best.2))

/-- The final-period row: `dp = 0`, `decisions = 'no_mantener'` for every
state. -/
def mFinalRow : List (ℤ × MAction) := (List.range states).map (fun _ => (0, .no_mantener))

/-- Prepends `k` backward steps in front of the accumulated rows (whose
head is the next period's row). -/
def mRowsAux (base_cost : ℤ) : ℕ → List (List (ℤ × MAction)) → List (List (ℤ × MAction))
  | 0, acc => acc
  | k + 1, acc => mRowsAux base_cost k (mRow base_cost (acc.headD []) :: acc)

/-- The full per-unit table, rows indexed by `t ∈ range(time_horizon)`
(empty horizon: no readable key was ever written at a valid period). -/
def mRows (base_cost : ℤ) (time_horizon : ℕ) : List (List (ℤ × MAction)) :=
  if time_horizon = 0 then [] else mRowsAux base_cost (time_horizon - 1) [mFinalRow]

/-- `decisions.get((eq_idx, t, current_state), 'no_mantener')`. -/
def decGet (rows : List (List (ℤ × MAction))) (t : ℕ) (current_state : ℤ) : MAction :=
  if 0 ≤ current_state ∧ current_state.toNat < (rows.getD t []).length ∧ t < rows.length then
    ((rows.getD t []).getD current_state.toNat (0, .no_mantener)).2
  else .no_mantener

/-- One realized schedule entry. -/
structure SchedEntry where
  period : ℕ
  state : ℤ
  action : MAction
  cost : ℤ
deriving DecidableEq, Repr

/-- Per-unit block of the result. -/
structure EquipSched where
  equipment : String
  eqtype : String
  initial_state : ℤ
  schedule : List SchedEntry
deriving DecidableEq, Repr

/-- Result record of `optimize_maintenance_schedule`. -/
structure MaintResult where
  maintenance_schedule : List EquipSched
  total_cost : ℤ
  time_horizon : ℕ
  algorithm : String
deriving DecidableEq, Repr

/-- The forward pass for one unit starting at period `t` with `rem`
periods left: look up the recorded action (default `'no_mantener'`),
charge its immediate cost, transition. -/
def forwardAux (base_cost : ℤ) (rows : List (List (ℤ × MAction))) :
    ℕ → ℕ → ℤ → List SchedEntry
  | _, 0, _ => []
  | t, rem + 1, current_state =>
      let action := decGet rows t current_state
      let cost := cost_function current_state action base_cost
      { period := t, state := current_state, action := action, cost := cost } ::
        forwardAux base_cost rows (t + 1) rem (degradation_prob current_state action)

/-- `DynamicProgrammingOptimizer.optimize_maintenance_schedule(
equipment_list, time_horizon, maintenance_costs)`; equipment tuples are
`(name, type, initial_state)`.  The global `total_cost` accumulates every
realized entry's cost across all units. -/
def optimize_maintenance_schedule (equipment_list : List (String × String × ℤ))
    (time_horizon : ℕ) (maintenance_costs : List (String × ℤ)) : MaintResult :=
  let blocks := equipment_list.map (fun eq =>
    let base := baseRate maintenance_costs eq.2.1
    let rows := mRows base time_horizon
    let sched := forwardAux base rows 0 time_horizon eq.2.2
    ({ equipment := eq.1, eqtype := eq.2.1, initial_state := eq.2.2,
       schedule := sched } : EquipSched))
  { maintenance_schedule := blocks
    total_cost := (blocks.map (fun b => ((b.schedule.map (fun e => e.cost)).sum))).sum
    time_horizon := time_horizon
    algorithm := "dynamic_programming_maintenance" }

/-! ## GreedyBaseline: `optimize_energy_distribution` (greedy.py)

Region inputs are `(region, demanda_mwh, poblacion, prioridad)`; all
numeric fields are modeled in `ℚ` (the source divides them, producing
floats).  The result's `distribution` dict is an association list with
Python-dict insert semantics. -/

/-- One element of `regions_with_efficiency`. -/
structure RegionInfo where
  region : String
  demanda : ℚ
  poblacion : ℚ
  prioridad : ℚ
  eficiencia : ℚ
  ratio_prioridad : ℚ
deriving DecidableEq, Repr

/-- The filtering pass: regions with `poblacion > 0` get an efficiency
record, the rest are skipped. -/
def regionsWithEfficiency (regions_demand : List (String × ℚ × ℚ × ℚ)) : List RegionInfo :=
  regions_demand.filterMap (fun q =>
    if 0 < q.2.2.1 then
      let eficiencia := q.2.1 / q.2.2.1
      some { region := q.1, demanda := q.2.1, poblacion := q.2.2.1, prioridad := q.2.2.2,
             eficiencia := eficiencia,
             ratio_prioridad := if eficiencia > 0 then q.2.2.2 / eficiencia else 0 }
    else none)

/-- The sort key `(-prioridad, eficiencia)` compared lexicographically
(Python's stable `sorted`). -/
def regionLE (a b : RegionInfo) : Bool :=
  decide (-a.prioridad < -b.prioridad ∨ (-a.prioridad = -b.prioridad ∧ a.eficiencia ≤ b.eficiencia))

/-- Python dict assignment `d[k] = v`: overwrite the existing key or
append a new one. -/
def dictInsert (d : List (String × ℚ)) (k : String) (v : ℚ) : List (String × ℚ) :=
  if d.any (fun kv => kv.1 == k) then d.map (fun kv => if kv.1 == k then (k, v) else kv)
  else d ++ [(k, v)]

/-- Result record of `optimize_energy_distribution`. -/
structure DistributionResult where
  distribution : List (String × ℚ)
  total_assigned : ℚ
  total_demand : ℚ
  satisfaction_rate : ℚ
  remaining_energy : ℚ
  algorithm : String
deriving DecidableEq, Repr

/-- `GreedyEnergyOptimizer.optimize_energy_distribution(regions_demand,
available_energy)`. -/
def optimize_energy_distribution (regions_demand : List (String × ℚ × ℚ × ℚ))
    (available_energy : ℚ) : DistributionResult :=
  let rwe := regionsWithEfficiency regions_demand
  let regions_sorted := rwe.mergeSort regionLE
  let fin := regions_sorted.foldl
    (fun (acc : List (String × ℚ) × ℚ × ℚ) rd =>
      if acc.2.1 ≤ 0 then (dictInsert acc.1 rd.region 0, acc.2.1, acc.2.2)
      else
        let assigned := min rd.demanda acc.2.1
        (dictInsert acc.1 rd.region assigned, acc.2.1 - assigned, acc.2.2 + assigned))
    ([], available_energy, 0)
  let total_demand := (rwe.map (fun r => r.demanda)).sum
  { distribution := fin.1
    total_assigned := fin.2.2
    total_demand := total_demand
    satisfaction_rate := if total_demand > 0 then fin.2.2 / total_demand * 100 else 0
    remaining_energy := fin.2.1
    algorithm := "greedy_priority_efficiency" }

/-! ## Generic helper lemmas -/

/-- Inversion for `Except` bind. -/
theorem exceptBind_ok {α β : Type} {e : Except PyErr α} {f : α → Except PyErr β} {b : β}
    (h : (e >>= f) = .ok b) : ∃ a, e = .ok a ∧ f a = .ok b := by
  cases e with
  | error ε => simp [Bind.bind, Except.bind] at h
  | ok a => exact ⟨a, rfl, by simpa [Bind.bind, Except.bind] using h⟩

theorem exList_nil {α β : Type} (f : α → Except PyErr β) : exList f [] = pure [] := rfl

theorem exList_cons {α β : Type} (f : α → Except PyErr β) (x : α) (xs : List α) :
    exList f (x :: xs) = (f x >>= fun y => exList f xs >>= fun ys => pure (y :: ys)) := rfl

/-- A successful `exList` maps each index through `f`. -/
theorem exList_ok_get {α β : Type} {f : α → Except PyErr β} :
    ∀ {l : List α} {r : List β}, exList f l = .ok r →
      r.length = l.length ∧
        ∀ i y, r.get? i = some y → ∃ x, l.get? i = some x ∧ f x = .ok y := by
  intro l
  induction l with
  | nil =>
      intro r h
      rw [exList_nil] at h
      cases h
      exact ⟨rfl, by intro i y h; simp at h⟩
  | cons x xs ih =>
      intro r h
      rw [exList_cons] at h
      obtain ⟨y, hy, h2⟩ := exceptBind_ok h
      obtain ⟨ys, hys, h3⟩ := exceptBind_ok h2
      cases h3
      obtain ⟨hlen, hget⟩ := ih hys
      refine ⟨by simp [hlen], ?_⟩
      intro i z hz
      cases i with
      | zero => exact ⟨x, rfl, by cases hz; exact hy⟩
      | succ j => exact hget j z hz

theorem exFold_nil {α β : Type} (f : β → α → Except PyErr β) (init : β) :
    exFold f init [] = pure init := rfl

theorem exFold_cons {α β : Type} (f : β → α → Except PyErr β) (init : β) (x : α) (xs : List α) :
    exFold f init (x :: xs) = (f init x >>= fun b => exFold f b xs) := rfl

/-- An invariant preserved by each step of a successful `exFold` holds of
the output. -/
theorem exFold_ok_inv {α β : Type} {f : β → α → Except PyErr β} (P : β → Prop) :
    ∀ {l : List α} {init out : β}, exFold f init l = .ok out → P init →
      (∀ acc x acc2, x ∈ l → P acc → f acc x = .ok acc2 → P acc2) → P out := by
  intro l
  induction l with
  | nil =>
      intro init out h hP _
      rw [exFold_nil] at h
      cases h
      exact hP
  | cons x xs ih =>
      intro init out h hP hstep
      rw [exFold_cons] at h
      obtain ⟨b, hb, h2⟩ := exceptBind_ok h
      exact ih h2 (hstep init x b (by simp) hP hb)
        (fun acc z acc2 hz => hstep acc z acc2 (by simp [hz]))

/-- Every member of a list is at most its `foldr max`. -/
theorem le_foldr_max (l : List ℤ) (d a : ℤ) (h : a ∈ l) : a ≤ l.foldr max d := by
  induction l with
  | nil => cases h
  | cons x xs ih =>
      rcases List.mem_cons.mp h with h1 | h2
      · simp [h1, le_max_iff]
      · simp [le_max_iff, ih h2]

/-- `foldr max` is below any common upper bound of the base and members. -/
theorem foldr_max_le (l : List ℤ) (d m : ℤ) (hd : d ≤ m) (h : ∀ a ∈ l, a ≤ m) :
    l.foldr max d ≤ m := by
  induction l with
  | nil => simpa using hd
  | cons x xs ih =>
      simp only [List.foldr_cons, max_le_iff]
      exact ⟨h x (by simp), ih (fun a ha => h a (by simp [ha]))⟩

/-- Decomposition of a sublist of `l ++ [a]`. -/
theorem sublist_concat_cases {α : Type} {l s : List α} {a : α} (h : s.Sublist (l ++ [a])) :
    s.Sublist l ∨ ∃ s2, s = s2 ++ [a] ∧ s2.Sublist l := by
  rcases List.sublist_append_iff.mp h with ⟨l₁, l₂, rfl, h1, h2⟩
  rcases List.sublist_singleton.mp h2 with rfl | rfl
  · exact Or.inl (by simpa using h1)
  · exact Or.inr ⟨l₁, rfl, h1⟩

/-! ## Knapsack lemmas -/

theorem costSum_nil : costSum [] = 0 := rfl

theorem costSum_cons (t : Proj3) (l : List Proj3) : costSum (t :: l) = t.1 + costSum l := by
  simp [costSum]

theorem costSum_append (l1 l2 : List Proj3) : costSum (l1 ++ l2) = costSum l1 + costSum l2 := by
  simp [costSum]

theorem benSum_nil : benSum [] = 0 := rfl

theorem benSum_append (l1 l2 : List Proj3) : benSum (l1 ++ l2) = benSum l1 + benSum l2 := by
  simp [benSum]

theorem costSum_nonneg (l : List Proj3) (h : ∀ p ∈ l, (0:ℤ) ≤ p.1) : 0 ≤ costSum l := by
  induction l with
  | nil => simp [costSum_nil]
  | cons x xs ih =>
      rw [costSum_cons]
      have := h x (by simp)
      have := ih (fun p hp => h p (by simp [hp]))
      omega

theorem costSum_pos (l : List Proj3) (h : ∀ p ∈ l, (1:ℤ) ≤ p.1) (hne : l ≠ []) :
    1 ≤ costSum l := by
  cases l with
  | nil => cases hne rfl
  | cons x xs =>
      rw [costSum_cons]
      have h1 := h x (by simp)
      have h2 := costSum_nonneg xs (fun p hp => le_trans (by norm_num) (h p (by simp [hp])))
      omega

/-- Unfolding equation for the recursive step, with the current project
named. -/
theorem knapsack_succ (ps : List Proj3) (budget : ℤ) (n : ℕ) :
    knapsack_energy_projects ps budget (n + 1) =
      if budget = 0 then (0, [])
      else
        if (ps.getD n (0, 0, "")).1 > budget then knapsack_energy_projects ps budget n
        else
          if (knapsack_energy_projects ps (budget - (ps.getD n (0, 0, "")).1) n).1
                + (ps.getD n (0, 0, "")).2.1
              > (knapsack_energy_projects ps budget n).1 then
            ((knapsack_energy_projects ps (budget - (ps.getD n (0, 0, "")).1) n).1
                + (ps.getD n (0, 0, "")).2.1,
             (knapsack_energy_projects ps (budget - (ps.getD n (0, 0, "")).1) n).2
                ++ [(ps.getD n (0, 0, "")).2.2])
          else knapsack_energy_projects ps budget n := rfl

/-- Soundness of the recursion: the returned benefit and names are those
of an explicit feasible subset of the first `idx` projects. -/
theorem knapsack_sound (ps : List Proj3) :
    ∀ idx, idx ≤ ps.length → ∀ budget : ℤ, 0 ≤ budget →
      ∃ S : List Proj3, S.Sublist (ps.take idx) ∧
        (knapsack_energy_projects ps budget idx).1 = benSum S ∧
        (knapsack_energy_projects ps budget idx).2 = S.map (fun t => t.2.2) ∧
        costSum S ≤ budget := by
  intro idx
  induction idx with
  | zero =>
      intro _ budget hb
      exact ⟨[], List.nil_sublist _, rfl, rfl, by simpa [costSum_nil] using hb⟩
  | succ n ih =>
      intro hlen budget hb
      have hn : n < ps.length := by omega
      obtain ⟨t, ht⟩ : ∃ t, ps.getD n (0, 0, "") = t := ⟨_, rfl⟩
      have helem : ps[n]? = some t := by
        rw [List.getD_eq_getElem?_getD, List.getElem?_eq_getElem hn] at ht
        rw [List.getElem?_eq_getElem hn]
        simpa using ht
      have htake : ps.take (n + 1) = ps.take n ++ [t] := by
        rw [List.take_succ, helem]
        rfl
      have htsub : (ps.take n).Sublist (ps.take (n + 1)) := by
        rw [htake]; exact List.sublist_append_left _ _
      rw [knapsack_succ, ht]
      by_cases hz : budget = 0
      · rw [if_pos hz]
        exact ⟨[], List.nil_sublist _, rfl, rfl, by simpa [costSum_nil] using hb⟩
      · rw [if_neg hz]
        by_cases hc : t.1 > budget
        · rw [if_pos hc]
          obtain ⟨S, hS1, hS2, hS3, hS4⟩ := ih (by omega) budget hb
          exact ⟨S, hS1.trans htsub, hS2, hS3, hS4⟩
        · rw [if_neg hc]
          push_neg at hc
          obtain ⟨Swo, hwo1, hwo2, hwo3, hwo4⟩ := ih (by omega) budget hb
          obtain ⟨Swi, hwi1, hwi2, hwi3, hwi4⟩ := ih (by omega) (budget - t.1) (by omega)
          by_cases hcmp : (knapsack_energy_projects ps (budget - t.1) n).1 + t.2.1
              > (knapsack_energy_projects ps budget n).1
          · rw [if_pos hcmp]
            refine ⟨Swi ++ [t], ?_, ?_, ?_, ?_⟩
            · rw [htake]; exact hwi1.append (List.Sublist.refl _)
            · simp [benSum_append, hwi2, benSum]
            · simp [hwi3]
            · rw [costSum_append, costSum_cons, costSum_nil]
              omega
          · rw [if_neg hcmp]
            exact ⟨Swo, hwo1.trans htsub, hwo2, hwo3, hwo4⟩

/-- Dominance: with strictly positive costs, the recursion's benefit is at
least that of every feasible subset of the first `idx` projects. -/
theorem knapsack_dominates (ps : List Proj3) :
    ∀ idx, idx ≤ ps.length → (∀ p ∈ ps.take idx, (1:ℤ) ≤ p.1) →
      ∀ (budget : ℤ) (s : List Proj3), s.Sublist (ps.take idx) → costSum s ≤ budget →
        benSum s ≤ (knapsack_energy_projects ps budget idx).1 := by
  intro idx
  induction idx with
  | zero =>
      intro _ _ budget s hs hcost
      have : s = [] := List.sublist_nil.mp (by simpa using hs)
      simp [this, benSum_nil, knapsack_energy_projects]
  | succ n ih =>
      intro hlen hpos budget s hs hcost
      have hn : n < ps.length := by omega
      obtain ⟨t, ht⟩ : ∃ t, ps.getD n (0, 0, "") = t := ⟨_, rfl⟩
      have helem : ps[n]? = some t := by
        rw [List.getD_eq_getElem?_getD, List.getElem?_eq_getElem hn] at ht
        rw [List.getElem?_eq_getElem hn]
        simpa using ht
      have htake : ps.take (n + 1) = ps.take n ++ [t] := by
        rw [List.take_succ, helem]
        rfl
      have htsub : (ps.take n).Sublist (ps.take (n + 1)) := by
        rw [htake]; exact List.sublist_append_left _ _
      have hposn : ∀ p ∈ ps.take n, (1:ℤ) ≤ p.1 :=
        fun p hp => hpos p (htsub.subset hp)
      have hst : ∀ p ∈ s, (1:ℤ) ≤ p.1 := fun p hp => hpos p (hs.subset hp)
      have htpos : (1:ℤ) ≤ t.1 := hpos t (by rw [htake]; simp)
      rw [knapsack_succ, ht]
      by_cases hz : budget = 0
      · rw [if_pos hz]
        have hse : s = [] := by
          by_contra hne
          have := costSum_pos s hst hne
          omega
        simp [hse, benSum_nil]
      · rw [if_neg hz]
        rw [htake] at hs
        by_cases hc : t.1 > budget
        · rw [if_pos hc]
          rcases sublist_concat_cases hs with h1 | ⟨s2, rfl, hs2⟩
          · exact ih (by omega) hposn budget s h1 hcost
          · exfalso
            have h0 : 0 ≤ costSum s2 :=
              costSum_nonneg s2 (fun p hp => le_trans (by norm_num) (hst p (by simp [hp])))
            rw [costSum_append, costSum_cons, costSum_nil] at hcost
            omega
        · rw [if_neg hc]
          push_neg at hc
          have hwo : (knapsack_energy_projects ps budget n).1
              ≤ (if (knapsack_energy_projects ps (budget - t.1) n).1 + t.2.1
                    > (knapsack_energy_projects ps budget n).1 then
                  ((knapsack_energy_projects ps (budget - t.1) n).1 + t.2.1,
                   (knapsack_energy_projects ps (budget - t.1) n).2 ++ [t.2.2])
                else knapsack_energy_projects ps budget n).1 := by
            by_cases hcmp : (knapsack_energy_projects ps (budget - t.1) n).1 + t.2.1
                > (knapsack_energy_projects ps budget n).1
            · rw [if_pos hcmp]; omega
            · rw [if_neg hcmp]
          have hwi : (knapsack_energy_projects ps (budget - t.1) n).1 + t.2.1
              ≤ (if (knapsack_energy_projects ps (budget - t.1) n).1 + t.2.1
                    > (knapsack_energy_projects ps budget n).1 then
                  ((knapsack_energy_projects ps (budget - t.1) n).1 + t.2.1,
                   (knapsack_energy_projects ps (budget - t.1) n).2 ++ [t.2.2])
                else knapsack_energy_projects ps budget n).1 := by
            by_cases hcmp : (knapsack_energy_projects ps (budget - t.1) n).1 + t.2.1
                > (knapsack_energy_projects ps budget n).1
            · rw [if_pos hcmp]
            · rw [if_neg hcmp]; omega
          rcases sublist_concat_cases hs with h1 | ⟨s2, rfl, hs2⟩
          · exact le_trans (ih (by omega) hposn budget s h1 hcost) hwo
          · have hcost2 : costSum s2 ≤ budget - t.1 := by
              rw [costSum_append, costSum_cons, costSum_nil] at hcost
              omega
            have := ih (by omega) hposn (budget - t.1) s2 hs2 hcost2
            rw [benSum_append]
            have hbt : benSum [t] = t.2.1 := by simp [benSum]
            rw [hbt]
            omega

/-- With strictly positive costs the recursion computes exactly the
brute-force optimum over the first `idx` projects. -/
theorem knapsack_eq_bruteBest (ps : List Proj3) (idx : ℕ) (h1 : idx ≤ ps.length)
    (h2 : ∀ p ∈ ps.take idx, (1:ℤ) ≤ p.1) (budget : ℤ) (hb : 0 ≤ budget) :
    (knapsack_energy_projects ps budget idx).1 = bruteBest budget (ps.take idx) := by
  apply le_antisymm
  · obtain ⟨S, hS1, hS2, _, hS4⟩ := knapsack_sound ps idx h1 budget hb
    rw [hS2]
    apply le_foldr_max
    apply List.mem_map.mpr
    refine ⟨S, ?_, rfl⟩
    apply List.mem_filter.mpr
    exact ⟨List.mem_sublists.mpr hS1, by simpa using hS4⟩
  · apply foldr_max_le
    · have := knapsack_dominates ps idx h1 h2 budget [] (List.nil_sublist _)
        (by simpa [costSum_nil] using hb)
      simpa [benSum_nil] using this
    · intro a ha
      obtain ⟨s, hsf, rfl⟩ := List.mem_map.mp ha
      obtain ⟨hsub, hcost⟩ := List.mem_filter.mp hsf
      exact knapsack_dominates ps idx h1 h2 budget s (List.mem_sublists.mp hsub)
        (by simpa using hcost)

/-- Field extraction from a successful `optimize_energy_projects` call. -/
theorem optimize_energy_projects_ok_fields {projects : List Proj4} {total_budget : ℤ}
    {r : SelectionResult} (h : optimize_energy_projects projects total_budget = .ok r) :
    r.total_benefit = (knapsack_energy_projects
        (projects.map (fun q => (q.1, q.2.1, q.2.2.1))) total_budget projects.length).1 ∧
    r.total_cost = ((((knapsack_energy_projects
        (projects.map (fun q => (q.1, q.2.1, q.2.2.1))) total_budget projects.length).2).filterMap
          (fun nm => (projects.find? (fun q => q.2.2.1 == nm)).map (fun q =>
            (⟨q.2.2.1, q.2.2.2, q.1, q.2.1,
              if q.1 > 0 then (q.2.1 : ℚ) / (q.1 : ℚ) else 0⟩ : SelDetail)))).map
        (fun d => d.costo)).sum := by
  unfold optimize_energy_projects at h
  obtain ⟨bu, _, hp⟩ := exceptBind_ok h
  simp only [pure, Except.pure, Except.ok.injEq] at hp
  subst hp
  exact ⟨rfl, rfl⟩

/-- With pairwise-distinct project names, the reconstructed per-name costs
are exactly the costs of the selected triples. -/
theorem details_cost_eq (projects : List Proj4)
    (hnames : (projects.map (fun q => q.2.2.1)).Nodup) :
    ∀ S : List Proj3, (∀ x ∈ S, x ∈ projects.map (fun q => (q.1, q.2.1, q.2.2.1))) →
      (((S.map (fun t => t.2.2)).filterMap
          (fun nm => (projects.find? (fun q => q.2.2.1 == nm)).map (fun q =>
            (⟨q.2.2.1, q.2.2.2, q.1, q.2.1,
              if q.1 > 0 then (q.2.1 : ℚ) / (q.1 : ℚ) else 0⟩ : SelDetail)))).map
        (fun d => d.costo)).sum = costSum S := by
  intro S
  induction S with
  | nil => intro _; simp [costSum_nil]
  | cons s S2 ih =>
      intro hmem
      obtain ⟨q, hq, hqs⟩ := List.mem_map.mp (hmem s (by simp))
      have hfind : ∃ q0, projects.find? (fun q2 => q2.2.2.1 == s.2.2) = some q0 := by
        have : (projects.find? (fun q2 => q2.2.2.1 == s.2.2)).isSome = true := by
          apply List.find?_isSome.mpr
          exact ⟨q, hq, by rw [← hqs]; simp⟩
        exact Option.isSome_iff_exists.mp this
      obtain ⟨q0, hq0⟩ := hfind
      have hq0mem : q0 ∈ projects := List.mem_of_find?_eq_some hq0
      have hq0name : q0.2.2.1 = s.2.2 := by
        have := List.find?_some hq0
        simpa using this
      have hq0q : q0 = q :=
        List.inj_on_of_nodup_map hnames hq0mem hq (by rw [hq0name, ← hqs])
      have hq0cost : q0.1 = s.1 := by rw [hq0q, ← hqs]
      have ihres := ih (fun x hx => hmem x (by simp [hx]))
      simp only [List.map_cons, List.filterMap_cons, hq0, Option.map_some', List.sum_cons,
        costSum_cons]
      rw [ihres, hq0cost]

/-! ## Claim theorems: ProjectSelector -/

/-- C2: with `budget = 0` the selector does NOT return the documented
empty zero-cost selection: the unguarded division in
`budget_used = (total_cost / total_budget) * 100` raises
`ZeroDivisionError` (evaluated here at the failing input
`projects = [], budget = 0`). -/
theorem projects_zero_budget_raises :
    optimize_energy_projects [] 0 = .error .zeroDivisionError := rfl

/-- C3 (counterexample to the claim as stated): with a zero-cost project
allowed by "non-negative costs", the `budget == 0` base case of the
recursion loses it: on `[(0,5,"A"),(3,1,"B")]` with budget 3 the selector
returns total benefit 5 while the brute-force optimum (take both) is 6. -/
theorem projects_optimality_counterexample :
    (optimize_energy_projects [(0, 5, "A", "t"), (3, 1, "B", "t")] 3).map
        (fun r => r.total_benefit) = .ok 5 ∧
      bruteBest 3 [(0, 5, "A"), (3, 1, "B")] = 6 := by
  exact ⟨rfl, by decide⟩

/-- C3 (amended): for every project list of at most 15 projects with
strictly positive costs and every budget ≥ 0, whenever the call returns a
result, its `total_benefit` equals the brute-force maximum benefit over
all subsets of the projects whose total cost is at most the budget. -/
theorem projects_total_benefit_optimal (projects : List Proj4) (budget : ℤ)
    (r : SelectionResult) (hlen : projects.length ≤ 15)
    (hpos : ∀ p ∈ projects, (1:ℤ) ≤ p.1) (hb : 0 ≤ budget)
    (h : optimize_energy_projects projects budget = .ok r) :
    r.total_benefit = bruteBest budget (projects.map (fun q => (q.1, q.2.1, q.2.2.1))) := by
  obtain ⟨hben, _⟩ := optimize_energy_projects_ok_fields h
  rw [hben]
  have hlen2 : projects.length ≤ (projects.map (fun q => (q.1, q.2.1, q.2.2.1))).length := by
    simp
  have htake : (projects.map (fun q => (q.1, q.2.1, q.2.2.1))).take projects.length
      = projects.map (fun q => (q.1, q.2.1, q.2.2.1)) := by
    apply List.take_of_length_le
    simp
  have hpos2 : ∀ p ∈ (projects.map (fun q => (q.1, q.2.1, q.2.2.1))).take projects.length,
      (1:ℤ) ≤ p.1 := by
    rw [htake]
    intro p hp
    obtain ⟨q, hq, rfl⟩ := List.mem_map.mp hp
    exact hpos q hq
  rw [knapsack_eq_bruteBest _ projects.length hlen2 hpos2 budget hb, htake]

/-- C3 witness: a concrete returning run matching the amended claim. -/
theorem projects_total_benefit_optimal_witness :
    ({ selected_projects := [⟨"A", "t", 2, 3, ((3:ℤ):ℚ) / ((2:ℤ):ℚ)⟩]
       total_benefit := 3
       total_cost := 2
       budget_used := ((2:ℤ):ℚ) / ((2:ℤ):ℚ) * 100
       remaining_budget := 0
       avg_roi := ((3:ℤ):ℚ) / ((2:ℤ):ℚ)
       algorithm := "dynamic_programming_knapsack" } : SelectionResult).total_benefit
      = bruteBest 2 ([((2:ℤ), (3:ℤ), "A", "t")].map (fun q => (q.1, q.2.1, q.2.2.1))) :=
  projects_total_benefit_optimal [(2, 3, "A", "t")] 2 _ (by decide) (by decide) (by decide) rfl

/-- C4 (counterexample to the claim as stated): with duplicate project
names, `total_cost` is reconstructed by first-name match against the
original list and can exceed the budget: `[(10,1,"A"),(2,5,"A")]` with
budget 2 selects the cheap "A" but reports the expensive one's cost 10. -/
theorem projects_feasibility_counterexample :
    (optimize_energy_projects [(10, 1, "A", "t"), (2, 5, "A", "t")] 2).map
        (fun r => r.total_cost) = .ok 10 ∧ ¬ ((10:ℤ) ≤ 2) := by
  exact ⟨rfl, by decide⟩

/-- C4 (amended): for every project list with non-negative costs and
pairwise-distinct names and every budget ≥ 0, whenever the call returns a
result, the reconstructed `total_cost` of the reported selection is at
most the budget. -/
theorem projects_total_cost_within_budget (projects : List Proj4) (budget : ℤ)
    (r : SelectionResult) (hc : ∀ p ∈ projects, (0:ℤ) ≤ p.1) (hb : 0 ≤ budget)
    (hnames : (projects.map (fun q => q.2.2.1)).Nodup)
    (h : optimize_energy_projects projects budget = .ok r) :
    r.total_cost ≤ budget := by
  obtain ⟨_, hcost⟩ := optimize_energy_projects_ok_fields h
  have hlen2 : projects.length ≤ (projects.map (fun q => (q.1, q.2.1, q.2.2.1))).length := by
    simp
  obtain ⟨S, hS1, _, hS3, hS4⟩ :=
    knapsack_sound (projects.map (fun q => (q.1, q.2.1, q.2.2.1))) projects.length hlen2
      budget hb
  have htake : (projects.map (fun q => (q.1, q.2.1, q.2.2.1))).take projects.length
      = projects.map (fun q => (q.1, q.2.1, q.2.2.1)) := by
    apply List.take_of_length_le
    simp
  rw [htake] at hS1
  rw [hcost, hS3, details_cost_eq projects hnames S (fun x hx => hS1.subset hx)]
  exact hS4

/-- C4 witness: a concrete returning run matching the amended claim. -/
theorem projects_total_cost_within_budget_witness :
    ({ selected_projects := [⟨"B", "u", 1, 5, ((5:ℤ):ℚ) / ((1:ℤ):ℚ)⟩]
       total_benefit := 5
       total_cost := 1
       budget_used := ((1:ℤ):ℚ) / ((3:ℤ):ℚ) * 100
       remaining_budget := 2
       avg_roi := ((5:ℤ):ℚ) / ((1:ℤ):ℚ)
       algorithm := "dynamic_programming_knapsack" } : SelectionResult).total_cost ≤ 3 :=
  projects_total_cost_within_budget [(1, 5, "B", "u")] 3 _ (by decide) (by decide)
    (by decide) rfl

/-! ## CapacityPlanner lemmas -/

/-- The decision stored by `fillCell` is one of the tried predecessors,
hence at most the cell's capacity. -/
theorem fillCell_decision_le {cm : CostModel} {demand : List ℤ}
    {prevRow : List (WithTop ℚ × ℕ)} {period cap : ℕ} {cell : WithTop ℚ × ℕ}
    (h : fillCell cm demand prevRow period cap = .ok cell) : cell.2 ≤ cap := by
  unfold fillCell at h
  refine exFold_ok_inv (fun acc => acc.2 ≤ cap) h (by simp) ?_
  intro acc x acc2 hx hP hstep
  have hxle : x ≤ cap := by
    have := List.mem_range.mp hx
    omega
  cases hrg : prevRow.get? x with
  | none =>
      rw [hrg] at hstep
      simp only [pure, Except.pure, Except.ok.injEq] at hstep
      exact hstep ▸ hP
  | some pcell =>
      rw [hrg] at hstep
      obtain ⟨d, _, hstep2⟩ := exceptBind_ok hstep
      simp only [pure, Except.pure, Except.ok.injEq] at hstep2
      subst hstep2
      by_cases hlt : (pcell.1 + ((cm.construction_cost ((cap : ℤ) - (x : ℤ)) : ℚ) : WithTop ℚ)
          + ((cm.operational_cost (cap : ℤ) d : ℚ) : WithTop ℚ)) < acc.1
      · rw [if_pos hlt]
        exact hxle
      · rw [if_neg hlt]
        exact hP

/-- In the period-0 row the stored decision equals the cell's capacity. -/
theorem initRow_decision_le {cm : CostModel} {demand : List ℤ} {mc : ℤ}
    {row : List (WithTop ℚ × ℕ)} (h : initRow cm demand mc = .ok row) :
    ∀ i cell, row.get? i = some cell → cell.2 ≤ i := by
  intro i cell hcell
  obtain ⟨_, hget⟩ := exList_ok_get h
  obtain ⟨x, hx, hfx⟩ := hget i cell hcell
  have hxi : x = i := by
    unfold capRange at hx
    rw [List.get?_eq_getElem?] at hx
    by_cases hlt : i < (mc + 1).toNat
    · rw [List.getElem?_range hlt] at hx
      cases hx
      rfl
    · rw [List.getElem?_eq_none (by simpa using hlt)] at hx
      cases hx
  subst hxi
  obtain ⟨d0, _, hp⟩ := exceptBind_ok hfx
  simp only [pure, Except.pure, Except.ok.injEq] at hp
  subst hp
  exact le_refl x

/-- Every row built by `dpRows` stores decisions bounded by the cell
capacity. -/
theorem dpRows_decision_le {cm : CostModel} {tp mc : ℤ} {demand : List ℤ}
    {rows : List (List (WithTop ℚ × ℕ))} (h : dpRows cm tp mc demand = .ok rows) :
    ∀ row ∈ rows, ∀ i cell, row.get? i = some cell → cell.2 ≤ i := by
  unfold dpRows at h
  obtain ⟨row0, hrow0, h2⟩ := exceptBind_ok h
  obtain ⟨st, hst, h3⟩ := exceptBind_ok h2
  simp only [pure, Except.pure, Except.ok.injEq] at h3
  subst h3
  refine exFold_ok_inv
    (fun st : List (List (WithTop ℚ × ℕ)) × List (WithTop ℚ × ℕ) =>
      ∀ row ∈ st.1, ∀ i cell, row.get? i = some cell → cell.2 ≤ i) hst ?_ ?_
  · intro row hrow
    have : row = row0 := by simpa using hrow
    subst this
    exact initRow_decision_le hrow0
  · intro acc period acc2 hper hP hstep
    obtain ⟨newRow, hnew, hp⟩ := exceptBind_ok hstep
    simp only [pure, Except.pure, Except.ok.injEq] at hp
    subst hp
    intro row hrow
    rcases List.mem_append.mp hrow with hold | hnewmem
    · exact hP row hold
    · have : row = newRow := by simpa using hnewmem
      subst this
      intro i cell hcell
      obtain ⟨_, hget⟩ := exList_ok_get hnew
      obtain ⟨x, hx, hfx⟩ := hget i cell hcell
      have hxi : x = i := by
        unfold capRange at hx
        rw [List.get?_eq_getElem?] at hx
        by_cases hlt : i < (mc + 1).toNat
        · rw [List.getElem?_range hlt] at hx
          cases hx
          rfl
        · rw [List.getElem?_eq_none (by simpa using hlt)] at hx
          cases hx
      subst hxi
      exact fillCell_decision_le hfx

/-- Inversion for `dictGet`. -/
theorem dictGet_ok {rows : List (List (WithTop ℚ × ℕ))} {p : ℤ} {cap : ℕ}
    {cell : WithTop ℚ × ℕ} (h : dictGet rows p cap = .ok cell) :
    ∃ row, rows.get? p.toNat = some row ∧ row.get? cap = some cell := by
  unfold dictGet at h
  by_cases hp : p < 0
  · rw [if_pos hp] at h
    cases h
  · rw [if_neg hp] at h
    split at h
    · cases h
    · rename_i row hrow
      split at h
      · cases h
      · rename_i c hcell
        simp only [pure, Except.pure, Except.ok.injEq] at h
        subst h
        exact ⟨row, hrow, hcell⟩

/-- Shape of a successful backtracking pass: one entry per period from `p`
down to 0, and (using the decision bound of the built table) only
non-negative expansions. -/
theorem reconstruct_spec {cm : CostModel} {demand : List ℤ}
    {rows : List (List (WithTop ℚ × ℕ))}
    (hinv : ∀ row ∈ rows, ∀ i cell, row.get? i = some cell → cell.2 ≤ i) :
    ∀ p c l, reconstruct cm demand rows p c = .ok l →
      l.length = p + 1 ∧
      (∀ j e, l.get? j = some e → e.period = p - j) ∧
      (∀ e ∈ l, 0 ≤ e.expansion) := by
  intro p
  induction p with
  | zero =>
      intro c l h
      unfold reconstruct at h
      obtain ⟨d, _, hp⟩ := exceptBind_ok h
      simp only [pure, Except.pure, Except.ok.injEq] at hp
      subst hp
      refine ⟨rfl, ?_, ?_⟩
      · intro j e he
        cases j with
        | zero =>
            simp only [List.get?] at he
            cases he
            rfl
        | succ k => simp [List.get?] at he
      · intro e he
        rw [List.mem_singleton] at he
        subst he
        exact Int.natCast_nonneg c
  | succ n ih =>
      intro c l h
      unfold reconstruct at h
      obtain ⟨cell, hcell, h2⟩ := exceptBind_ok h
      obtain ⟨d, _, h3⟩ := exceptBind_ok h2
      obtain ⟨rest, hrest, h4⟩ := exceptBind_ok h3
      simp only [pure, Except.pure, Except.ok.injEq] at h4
      subst h4
      obtain ⟨hlen, hper, hexp⟩ := ih cell.2 rest hrest
      obtain ⟨row, hrow, hrowcell⟩ := dictGet_ok hcell
      have hle : cell.2 ≤ c := hinv row (List.get?_mem hrow) c cell hrowcell
      refine ⟨by simp [hlen], ?_, ?_⟩
      · intro j e he
        cases j with
        | zero =>
            simp only [List.get?] at he
            cases he
            rfl
        | succ k =>
            simp only [List.get?] at he
            have := hper k e he
            omega
      · intro e he
        rcases List.mem_cons.mp he with rfl | hmem
        · have : (cell.2 : ℤ) ≤ (c : ℤ) := by exact_mod_cast hle
          simp only
          omega
        · exact hexp e hmem

theorem recompute_length (acc : ℤ) (l : List PlanEntry) :
    (recompute acc l).length = l.length := by
  induction l generalizing acc with
  | nil => rfl
  | cons e rest ih => simp [recompute, ih]

/-- `recompute` only rewrites `total_capacity`; the other fields survive. -/
theorem recompute_get {acc : ℤ} {l : List PlanEntry} :
    ∀ j e2, (recompute acc l).get? j = some e2 →
      ∃ e, l.get? j = some e ∧ e2.period = e.period ∧ e2.expansion = e.expansion ∧
        e2.total_capacity = acc + ((l.take (j + 1)).map (fun x => x.expansion)).sum := by
  induction l generalizing acc with
  | nil => intro j e2 h; simp [recompute, List.get?] at h
  | cons e rest ih =>
      intro j e2 h
      cases j with
      | zero =>
          simp only [recompute, List.get?] at h
          cases h
          exact ⟨e, rfl, rfl, rfl, by simp⟩
      | succ k =>
          simp only [recompute, List.get?] at h
          obtain ⟨e0, hget, hp, hx, htc⟩ := ih k e2 h
          refine ⟨e0, hget, hp, hx, ?_⟩
          rw [htc]
          simp only [List.take_succ_cons, List.map_cons, List.sum_cons]
          ring

theorem recompute_map_expansion (acc : ℤ) (l : List PlanEntry) :
    (recompute acc l).map (fun x => x.expansion) = l.map (fun x => x.expansion) := by
  induction l generalizing acc with
  | nil => rfl
  | cons e rest ih => simp [recompute, ih]

/-- C5: in every result of `optimize_capacity_planning`, each plan entry's
`total_capacity` is the running sum of the expansions of the entries up to
and including it, the entry at position `j` is the one for period `j`, and
consequently `total_capacity` is monotonically non-decreasing along the
plan. -/
theorem capacity_running_sum_monotone (cm : CostModel) (tp mc : ℤ) (demand : List ℤ)
    (r : CapacityPlanResult) (h : optimize_capacity_planning cm tp mc demand = .ok r) :
    (∀ j e, r.optimal_plan.get? j = some e →
        e.period = j ∧
        e.total_capacity = ((r.optimal_plan.take (j + 1)).map (fun x => x.expansion)).sum) ∧
    (∀ j e e2, r.optimal_plan.get? j = some e → r.optimal_plan.get? (j + 1) = some e2 →
        e.total_capacity ≤ e2.total_capacity) := by
  unfold optimize_capacity_planning at h
  obtain ⟨rows, hrows, h2⟩ := exceptBind_ok h
  obtain ⟨fin, hfin, h3⟩ := exceptBind_ok h2
  have hsplit : ∃ plan0,
      (if tp - 1 < 0 then (pure [] : Except PyErr (List PlanEntry))
        else reconstruct cm demand rows (tp - 1).toNat fin.2) = .ok plan0 ∧
      (pure (⟨recompute 0 plan0.reverse, fin.1, fin.2, (rows.map List.length).sum,
          "dynamic_programming_capacity"⟩ : CapacityPlanResult)
        : Except PyErr CapacityPlanResult) = .ok r := by
    by_cases htp : tp - 1 < 0
    · rw [if_pos htp] at h3 ⊢
      exact exceptBind_ok h3
    · rw [if_neg htp] at h3 ⊢
      exact exceptBind_ok h3
  obtain ⟨plan0, hplan0, h4⟩ := hsplit
  simp only [pure, Except.pure, Except.ok.injEq] at h4
  subst h4
  have hL : ∀ e ∈ plan0.reverse, 0 ≤ e.expansion := by
    by_cases htp : tp - 1 < 0
    · rw [if_pos htp] at hplan0
      simp only [pure, Except.pure, Except.ok.injEq] at hplan0
      subst hplan0
      intro e he
      simp at he
    · rw [if_neg htp] at hplan0
      obtain ⟨_, _, hexp⟩ := reconstruct_spec (dpRows_decision_le hrows) _ _ _ hplan0
      intro e he
      exact hexp e (List.mem_reverse.mp he)
  have hper : ∀ j e, plan0.reverse.get? j = some e → e.period = j := by
    by_cases htp : tp - 1 < 0
    · rw [if_pos htp] at hplan0
      simp only [pure, Except.pure, Except.ok.injEq] at hplan0
      subst hplan0
      intro j e he
      simp [List.get?_eq_getElem?] at he
    · rw [if_neg htp] at hplan0
      obtain ⟨hlen, hperiods, _⟩ := reconstruct_spec (dpRows_decision_le hrows) _ _ _ hplan0
      intro j e he
      have hjlt : j < plan0.length := by
        have := List.get?_eq_some.mp he
        obtain ⟨hj, _⟩ := this
        simpa using hj
      rw [List.get?_reverse (by simpa using hjlt)] at he
      have := hperiods (plan0.length - 1 - j) e he
      omega
  have hmain : ∀ j e, (recompute 0 plan0.reverse).get? j = some e →
      e.period = j ∧
      e.total_capacity
        = (((recompute 0 plan0.reverse).take (j + 1)).map (fun x => x.expansion)).sum := by
    intro j e he
    obtain ⟨e0, hget0, hp, hx, htc⟩ := recompute_get j e he
    refine ⟨by rw [hp]; exact hper j e0 hget0, ?_⟩
    rw [htc]
    simp only [List.map_take]
    rw [recompute_map_expansion]
    omega
  have hexpP : ∀ j e, (recompute 0 plan0.reverse).get? j = some e → 0 ≤ e.expansion := by
    intro j e he
    obtain ⟨e0, hget0, _, hx, _⟩ := recompute_get j e he
    rw [hx]
    exact hL e0 (List.get?_mem hget0)
  refine ⟨hmain, ?_⟩
  intro j e e2 he he2
  obtain ⟨_, htc⟩ := hmain j e he
  obtain ⟨_, htc2⟩ := hmain (j + 1) e2 he2
  have hj2 : j + 1 < (recompute 0 plan0.reverse).length := by
    obtain ⟨hj, _⟩ := List.get?_eq_some.mp he2
    simpa using hj
  have htake : (recompute 0 plan0.reverse).take (j + 2)
      = (recompute 0 plan0.reverse).take (j + 1) ++ [e2] := by
    rw [List.take_succ]
    rw [List.get?_eq_getElem?] at he2
    rw [he2]
    rfl
  rw [htc, htc2, htake]
  simp only [List.map_append, List.sum_append, List.map_cons, List.map_nil, List.sum_cons,
    List.sum_nil]
  have := hexpP (j + 1) e2 he2
  omega

/-- C5 witness: instantiating the running-sum/monotonicity theorem on the
concrete run `optimize_capacity_planning czero 2 0 [3,4]`. -/
theorem capacity_running_sum_monotone_witness :
    (⟨0, 0, 0, 3, 0, 0⟩ : PlanEntry).total_capacity
      ≤ (⟨1, 0, 0, 4, 0, 0⟩ : PlanEntry).total_capacity :=
  (capacity_running_sum_monotone czero 2 0 [3, 4]
      ⟨[⟨0, 0, 0, 3, 0, 0⟩, ⟨1, 0, 0, 4, 0, 0⟩],
        ((((0:ℚ) + 0 + 0 + 0 : ℚ)) : WithTop ℚ), 0, 2, "dynamic_programming_capacity"⟩
      rfl).2 0 ⟨0, 0, 0, 3, 0, 0⟩ ⟨1, 0, 0, 4, 0, 0⟩ rfl rfl

/-- C1 (counterexample to the claim as stated): the invalid input
`periods = 1, maxCapacity = -1, demand = [5]` is not rejected at all — the
call returns a normal result (empty DP table, infinite total cost) instead
of failing. -/
theorem capacity_invalid_input_returns :
    optimize_capacity_planning czero 1 (-1) [5] = .ok
      ⟨[⟨0, 0, 0, 5, 0, 0⟩], ⊤, 0, 0, "dynamic_programming_capacity"⟩ := rfl

/-- C1 (amended): `optimize_capacity_planning` performs no `InvalidInput`
validation: for every cost model and every negative `max_capacity`, the
call with `periods = 1` and a matching one-element demand list returns a
normal result (empty DP table, infinite total cost, zero final capacity)
rather than failing with any error. -/
theorem capacity_no_input_validation (cm : CostModel) (mc d : ℤ) (hmc : mc < 0) :
    optimize_capacity_planning cm 1 mc [d] = .ok
      ⟨[⟨0, 0, 0, d, cm.construction_cost 0, cm.operational_cost 0 d⟩],
        ⊤, 0, 0, "dynamic_programming_capacity"⟩ := by
  have hcaps : capRange mc = [] := by
    unfold capRange
    rw [Int.toNat_of_nonpos (by omega)]
    rfl
  unfold optimize_capacity_planning dpRows initRow finalSel
  rw [hcaps]
  simp [exList, exFold, reconstruct, recompute, pyIdx, pure, Except.pure, Bind.bind, Except.bind]

/-- C1 witness: the amended theorem applied at `mc = -2`, `d = 7`. -/
theorem capacity_no_input_validation_witness :
    optimize_capacity_planning czero 1 (-2) [7] = .ok
      ⟨[⟨0, 0, 0, 7, czero.construction_cost 0, czero.operational_cost 0 7⟩],
        ⊤, 0, 0, "dynamic_programming_capacity"⟩ :=
  capacity_no_input_validation czero (-2) 7 (by decide)

/-! ## MaintenanceScheduler lemmas -/

/-- C6 (counterexample to the claim as stated): at `base = 100`, state 1,
final-period lookahead, both actions cost 200 — a tie — yet the table
records `mantener`, not the claimed `no_mantener`, both in the backward
table and in the realized schedule of the corresponding run. -/
theorem maintenance_tie_counterexample :
    cost_function 1 .mantener 100 + futureCost mFinalRow (degradation_prob 1 .mantener)
      = cost_function 1 .no_mantener 100 + futureCost mFinalRow (degradation_prob 1 .no_mantener) ∧
    (((mRows 100 2).getD 0 []).getD 1 (0, .no_mantener)).2 = .mantener ∧
    ((optimize_maintenance_schedule [("E", "X", 1)] 2 [("X", 100)]).maintenance_schedule.getD 0
        ⟨"", "", 0, []⟩).schedule.getD 0 ⟨0, 0, .no_mantener, 0⟩
      = ⟨0, 1, .mantener, 200⟩ := by
  refine ⟨by decide, by decide, by decide⟩

/-- C6 (amended): in the backward recurrence, whenever the two actions
yield equal total cost (immediate plus future), the recorded winning
action is `mantener` — the first action tried, kept by the strict `<`
update. -/
theorem maintenance_tie_favors_mantener (base : ℤ) (next : List (ℤ × MAction)) (s : ℕ)
    (hs : s < states)
    (htie : cost_function (s : ℤ) .mantener base
          + futureCost next (degradation_prob (s : ℤ) .mantener)
        = cost_function (s : ℤ) .no_mantener base
          + futureCost next (degradation_prob (s : ℤ) .no_mantener)) :
    ((mRow base next).getD s (0, .no_mantener)).2 = .mantener := by
  unfold mRow
  rw [List.getD_eq_getElem?_getD, List.getElem?_map, List.getElem?_range hs]
  simp only [Option.map_some', Option.getD_some, List.foldl_cons, List.foldl_nil]
  rw [if_pos (WithTop.coe_lt_top _)]
  have hne : ¬ ((↑(cost_function (s : ℤ) .no_mantener base
        + futureCost next (degradation_prob (s : ℤ) .no_mantener)) : WithTop ℤ)
      < ((↑(cost_function (s : ℤ) .mantener base
        + futureCost next (degradation_prob (s : ℤ) .mantener)) : WithTop ℤ),
          MAction.mantener).1) := by
    rw [← htie]
    exact lt_irrefl _
  rw [if_neg hne]

/-- C6 witness: the amended tie rule applied at `base = 100`, state 1,
against the final-period row. -/
theorem maintenance_tie_favors_mantener_witness :
    ((mRow 100 mFinalRow).getD 1 (0, .no_mantener)).2 = .mantener :=
  maintenance_tie_favors_mantener 100 mFinalRow 1 (by decide) (by decide)

/-- One transition step keeps health inside `[0, states - 1]`. -/
theorem degradation_prob_bounds (s : ℤ) (a : MAction) (h0 : 0 ≤ s) (h1 : s ≤ (states : ℤ) - 1) :
    0 ≤ degradation_prob s a ∧ degradation_prob s a ≤ (states : ℤ) - 1 := by
  cases a <;> simp only [degradation_prob, states] at h1 ⊢ <;> omega

/-- Every state recorded by the forward pass, and every transition it
takes, stays inside `[0, states - 1]` when the start state does. -/
theorem forwardAux_state_bounds (base : ℤ) (rows : List (List (ℤ × MAction))) :
    ∀ (rem t : ℕ) (cur : ℤ), 0 ≤ cur → cur ≤ (states : ℤ) - 1 →
      ∀ e ∈ forwardAux base rows t rem cur,
        (0 ≤ e.state ∧ e.state ≤ (states : ℤ) - 1) ∧
        (0 ≤ degradation_prob e.state e.action ∧
          degradation_prob e.state e.action ≤ (states : ℤ) - 1) := by
  intro rem
  induction rem with
  | zero =>
      intro t cur _ _ e he
      simp [forwardAux] at he
  | succ k ih =>
      intro t cur h0 h1 e he
      rw [forwardAux] at he
      rcases List.mem_cons.mp he with rfl | hmem
      · exact ⟨⟨h0, h1⟩, degradation_prob_bounds cur _ h0 h1⟩
      · obtain ⟨hn0, hn1⟩ := degradation_prob_bounds cur (decGet rows t cur) h0 h1
        exact ih (t + 1) (degradation_prob cur (decGet rows t cur)) hn0 hn1 e hmem

/-- C7: every health value in the realized schedule of a unit whose
initial health is in `[0, states - 1]` stays in `[0, states - 1]`, and so
does the transition out of each entry (maintain saturates at 0, defer at
`states - 1`). -/
theorem maintenance_health_bounds (equipment_list : List (String × String × ℤ))
    (time_horizon : ℕ) (maintenance_costs : List (String × ℤ)) :
    ∀ es ∈ (optimize_maintenance_schedule equipment_list time_horizon
        maintenance_costs).maintenance_schedule,
      0 ≤ es.initial_state → es.initial_state ≤ (states : ℤ) - 1 →
      ∀ e ∈ es.schedule,
        (0 ≤ e.state ∧ e.state ≤ (states : ℤ) - 1) ∧
        (0 ≤ degradation_prob e.state e.action ∧
          degradation_prob e.state e.action ≤ (states : ℤ) - 1) := by
  intro es hes h0 h1 e he
  obtain ⟨eq, heq, rfl⟩ := List.mem_map.mp hes
  exact forwardAux_state_bounds (baseRate maintenance_costs eq.2.1)
    (mRows (baseRate maintenance_costs eq.2.1) time_horizon) time_horizon 0 eq.2.2 h0 h1 e he

/-- C7 witness: the bounds theorem applied to the concrete run on one unit
with initial health 2 over horizon 2. -/
theorem maintenance_health_bounds_witness :
    (0 ≤ (⟨0, 2, .mantener, 300⟩ : SchedEntry).state ∧
      (⟨0, 2, .mantener, 300⟩ : SchedEntry).state ≤ (states : ℤ) - 1) ∧
    (0 ≤ degradation_prob (⟨0, 2, .mantener, 300⟩ : SchedEntry).state
        (⟨0, 2, .mantener, 300⟩ : SchedEntry).action ∧
      degradation_prob (⟨0, 2, .mantener, 300⟩ : SchedEntry).state
        (⟨0, 2, .mantener, 300⟩ : SchedEntry).action ≤ (states : ℤ) - 1) :=
  maintenance_health_bounds [("E", "X", 2)] 2 [("X", 100)]
    ⟨"E", "X", 2, [⟨0, 2, .mantener, 300⟩, ⟨1, 1, .no_mantener, 200⟩]⟩ (by decide)
    (by decide) (by decide) ⟨0, 2, .mantener, 300⟩ (by decide)

theorem mRowsAux_length (base : ℤ) :
    ∀ (k : ℕ) (acc : List (List (ℤ × MAction))),
      (mRowsAux base k acc).length = k + acc.length := by
  intro k
  induction k with
  | zero => intro acc; simp [mRowsAux]
  | succ n ih =>
      intro acc
      rw [mRowsAux, ih]
      simp
      omega

theorem mRowsAux_getLast (base : ℤ) :
    ∀ (k : ℕ) (acc : List (List (ℤ × MAction))), acc ≠ [] →
      (mRowsAux base k acc).getLast? = acc.getLast? := by
  intro k
  induction k with
  | zero => intro acc _; rfl
  | succ n ih =>
      intro acc hne
      rw [mRowsAux, ih _ (by simp)]
      cases acc with
      | nil => cases hne rfl
      | cons a l => rw [List.getLast?_cons_cons]

theorem mRows_length (base : ℤ) (h : ℕ) (hh : 1 ≤ h) : (mRows base h).length = h := by
  unfold mRows
  rw [if_neg (by omega), mRowsAux_length]
  simp
  omega

theorem mRows_getLast (base : ℤ) (h : ℕ) (hh : 1 ≤ h) :
    (mRows base h).getLast? = some mFinalRow := by
  unfold mRows
  rw [if_neg (by omega), mRowsAux_getLast _ _ _ (by simp)]
  rfl

/-- At the final period every readable decision is `no_mantener`: either
the final row (all `(0, no_mantener)`) answers, or the dictionary default
does. -/
theorem decGet_final (base : ℤ) (h : ℕ) (hh : 1 ≤ h) (cur : ℤ) :
    decGet (mRows base h) (h - 1) cur = .no_mantener := by
  have hrow : (mRows base h).getD (h - 1) [] = mFinalRow := by
    have hlen := mRows_length base h hh
    have hlast := mRows_getLast base h hh
    rw [List.getLast?_eq_getElem?, hlen] at hlast
    rw [List.getD_eq_getElem?_getD, hlast]
    rfl
  unfold decGet
  rw [hrow]
  by_cases hc : 0 ≤ cur ∧ cur.toNat < mFinalRow.length ∧ h - 1 < (mRows base h).length
  · rw [if_pos hc]
    obtain ⟨h1, h2, _⟩ := hc
    unfold mFinalRow at h2 ⊢
    rw [List.getD_eq_getElem?_getD, List.getElem?_map,
      List.getElem?_range (by simpa using h2)]
    rfl
  · rw [if_neg hc]

theorem forwardAux_length (base : ℤ) (rows : List (List (ℤ × MAction))) :
    ∀ (rem t : ℕ) (cur : ℤ), (forwardAux base rows t rem cur).length = rem := by
  intro rem
  induction rem with
  | zero => intro t cur; rfl
  | succ k ih =>
      intro t cur
      rw [forwardAux]
      simp [ih]

/-- The last entry of a non-empty forward pass is the one for the last
period, with the action read off the table there. -/
theorem forwardAux_getLast (base : ℤ) (rows : List (List (ℤ × MAction))) :
    ∀ (rem t : ℕ) (cur : ℤ), 1 ≤ rem →
      ∃ s, (forwardAux base rows t rem cur).getLast?
        = some ⟨t + rem - 1, s, decGet rows (t + rem - 1) s,
            cost_function s (decGet rows (t + rem - 1) s) base⟩ := by
  intro rem
  induction rem with
  | zero => intro t cur h; omega
  | succ k ih =>
      intro t cur _
      cases k with
      | zero =>
          refine ⟨cur, ?_⟩
          rw [forwardAux, forwardAux]
          rfl
      | succ m =>
          obtain ⟨s, hs⟩ := ih (t + 1) (degradation_prob cur (decGet rows t cur)) (by omega)
          rw [show t + 1 + (m + 1) - 1 = t + (m + 1 + 1) - 1 from by omega] at hs
          refine ⟨s, ?_⟩
          rw [forwardAux]
          cases hfa : forwardAux base rows (t + 1) (m + 1)
              (degradation_prob cur (decGet rows t cur)) with
          | nil =>
              have hl := forwardAux_length base rows (m + 1) (t + 1)
                (degradation_prob cur (decGet rows t cur))
              rw [hfa] at hl
              simp at hl
          | cons a l =>
              rw [hfa] at hs
              rw [List.getLast?_cons_cons]
              exact hs

/-- C9: with horizon ≥ 1, every unit's realized schedule has exactly
`time_horizon` entries, ends with the action `no_mantener` at the final
period with immediate cost `state * 200`, this cost is part of the
reported `total_cost` (which is exactly the sum of all realized entry
costs), even though the DP table's final-period row assigns cost 0 (and
`no_mantener`) to every health state. -/
theorem maintenance_final_period_defer (equipment_list : List (String × String × ℤ))
    (time_horizon : ℕ) (maintenance_costs : List (String × ℤ)) (hh : 1 ≤ time_horizon) :
    (∀ es ∈ (optimize_maintenance_schedule equipment_list time_horizon
        maintenance_costs).maintenance_schedule,
      es.schedule.length = time_horizon ∧
      ∃ s : ℤ, es.schedule.getLast? = some ⟨time_horizon - 1, s, .no_mantener, s * 200⟩) ∧
    (optimize_maintenance_schedule equipment_list time_horizon
        maintenance_costs).total_cost
      = ((optimize_maintenance_schedule equipment_list time_horizon
          maintenance_costs).maintenance_schedule.map
            (fun es => (es.schedule.map (fun e => e.cost)).sum)).sum ∧
    (∀ base : ℤ, ∀ cell ∈ ((mRows base time_horizon).getLast?.getD []),
      cell = ((0 : ℤ), MAction.no_mantener)) := by
  refine ⟨?_, ?_, ?_⟩
  · intro es hes
    obtain ⟨eq, heq, rfl⟩ := List.mem_map.mp hes
    constructor
    · exact forwardAux_length _ _ time_horizon 0 eq.2.2
    · obtain ⟨s, hs⟩ := forwardAux_getLast (baseRate maintenance_costs eq.2.1)
        (mRows (baseRate maintenance_costs eq.2.1) time_horizon) time_horizon 0 eq.2.2 hh
      refine ⟨s, ?_⟩
      have h0 : 0 + time_horizon - 1 = time_horizon - 1 := by omega
      rw [h0] at hs
      rw [decGet_final _ _ hh] at hs
      exact hs
  · simp [optimize_maintenance_schedule]
  · intro base cell hcell
    rw [mRows_getLast base time_horizon hh] at hcell
    simp only [Option.getD_some] at hcell
    unfold mFinalRow at hcell
    obtain ⟨_, _, rfl⟩ := List.mem_map.mp hcell
    rfl

/-- C9 witness: the final-period theorem instantiated on the concrete run
with one unit of initial health 2 over a horizon of 2 periods. -/
theorem maintenance_final_period_defer_witness :
    (⟨"E", "X", 2, [⟨0, 2, .mantener, 300⟩, ⟨1, 1, .no_mantener, 200⟩]⟩
        : EquipSched).schedule.length = 2 ∧
    ∃ s : ℤ, (⟨"E", "X", 2, [⟨0, 2, .mantener, 300⟩, ⟨1, 1, .no_mantener, 200⟩]⟩
        : EquipSched).schedule.getLast? = some ⟨2 - 1, s, .no_mantener, s * 200⟩ :=
  (maintenance_final_period_defer [("E", "X", 2)] 2 [("X", 100)] (by decide)).1
    ⟨"E", "X", 2, [⟨0, 2, .mantener, 300⟩, ⟨1, 1, .no_mantener, 200⟩]⟩ (by decide)

/-- C8: each of the three embedded solvers is a pure function of its
inputs — two calls with identical arguments return identical results
(cost totals and chosen decisions included); there is no hidden state in
the embedding, and the source's `lru_cache` only memoizes this same pure
recursion. -/
theorem solvers_deterministic :
    (∀ (cm : CostModel) (tp mc : ℤ) (demand : List ℤ),
        optimize_capacity_planning cm tp mc demand
          = optimize_capacity_planning cm tp mc demand) ∧
    (∀ (projects : List Proj4) (budget : ℤ),
        optimize_energy_projects projects budget = optimize_energy_projects projects budget) ∧
    (∀ (equipment_list : List (String × String × ℤ)) (time_horizon : ℕ)
        (maintenance_costs : List (String × ℤ)),
        optimize_maintenance_schedule equipment_list time_horizon maintenance_costs
          = optimize_maintenance_schedule equipment_list time_horizon maintenance_costs) :=
  ⟨fun _ _ _ _ => rfl, fun _ _ => rfl, fun _ _ _ => rfl⟩

/-! ## GreedyBaseline lemmas -/

/-- Key membership after a Python-dict insert. -/
theorem dictInsert_keys (d : List (String × ℚ)) (k k2 : String) (v : ℚ) :
    (∃ kv ∈ dictInsert d k v, kv.1 = k2) ↔ (k2 = k ∨ ∃ kv ∈ d, kv.1 = k2) := by
  unfold dictInsert
  by_cases hany : d.any (fun kv => kv.1 == k)
  · rw [if_pos hany]
    constructor
    · rintro ⟨kv2, hkv2, rfl⟩
      obtain ⟨kv, hkv, hmap⟩ := List.mem_map.mp hkv2
      by_cases hk : kv.1 == k
      · rw [if_pos hk] at hmap
        subst hmap
        exact Or.inl rfl
      · rw [if_neg hk] at hmap
        subst hmap
        exact Or.inr ⟨kv, hkv, rfl⟩
    · rintro (rfl | ⟨kv, hkv, rfl⟩)
      · obtain ⟨kv, hkv, hkvk⟩ := List.any_eq_true.mp hany
        refine ⟨(k2, v), List.mem_map.mpr ⟨kv, hkv, ?_⟩, rfl⟩
        rw [if_pos hkvk]
      · by_cases hk : kv.1 == k
        · refine ⟨(k, v), List.mem_map.mpr ⟨kv, hkv, by rw [if_pos hk]⟩, ?_⟩
          simpa using (beq_iff_eq.mp hk).symm
        · exact ⟨kv, List.mem_map.mpr ⟨kv, hkv, by rw [if_neg hk]⟩, rfl⟩
  · rw [if_neg hany]
    constructor
    · rintro ⟨kv2, hkv2, rfl⟩
      rcases List.mem_append.mp hkv2 with hd | hnew
      · exact Or.inr ⟨kv2, hd, rfl⟩
      · have : kv2 = (k, v) := by simpa using hnew
        subst this
        exact Or.inl rfl
    · rintro (rfl | ⟨kv, hkv, rfl⟩)
      · exact ⟨(k2, v), List.mem_append.mpr (Or.inr (by simp)), rfl⟩
      · exact ⟨kv, List.mem_append.mpr (Or.inl hkv), rfl⟩

/-- Key membership through the greedy assignment loop: exactly the
processed region names plus whatever was already present. -/
theorem distFold_keys :
    ∀ (l : List RegionInfo) (acc : List (String × ℚ) × ℚ × ℚ) (k2 : String),
      (∃ kv ∈ (l.foldl (fun (acc : List (String × ℚ) × ℚ × ℚ) rd =>
            if acc.2.1 ≤ 0 then (dictInsert acc.1 rd.region 0, acc.2.1, acc.2.2)
            else
              let assigned := min rd.demanda acc.2.1
              (dictInsert acc.1 rd.region assigned, acc.2.1 - assigned, acc.2.2 + assigned))
          acc).1, kv.1 = k2)
        ↔ ((∃ r ∈ l, r.region = k2) ∨ ∃ kv ∈ acc.1, kv.1 = k2) := by
  intro l
  induction l with
  | nil =>
      intro acc k2
      simp
  | cons rd rest ih =>
      intro acc k2
      rw [List.foldl_cons]
      rw [ih]
      by_cases hc : acc.2.1 ≤ 0
      · rw [if_pos hc]
        rw [dictInsert_keys]
        constructor
        · rintro (h | rfl | h)
          · exact Or.inl ⟨_, by simp [h.choose_spec.1], h.choose_spec.2⟩
          · exact Or.inl ⟨rd, by simp, rfl⟩
          · exact Or.inr h
        · rintro (⟨r, hr, rfl⟩ | h)
          · rcases List.mem_cons.mp hr with rfl | hmem
            · exact Or.inr (Or.inl rfl)
            · exact Or.inl ⟨r, hmem, rfl⟩
          · exact Or.inr (Or.inr h)
      · rw [if_neg hc]
        rw [dictInsert_keys]
        constructor
        · rintro (h | rfl | h)
          · exact Or.inl ⟨_, by simp [h.choose_spec.1], h.choose_spec.2⟩
          · exact Or.inl ⟨rd, by simp, rfl⟩
          · exact Or.inr h
        · rintro (⟨r, hr, rfl⟩ | h)
          · rcases List.mem_cons.mp hr with rfl | hmem
            · exact Or.inr (Or.inl rfl)
            · exact Or.inl ⟨r, hmem, rfl⟩
          · exact Or.inr (Or.inr h)

/-- The names appearing in `regions_with_efficiency` are exactly the names
of input regions with positive population. -/
theorem rwe_region_names (regions_demand : List (String × ℚ × ℚ × ℚ)) (name : String) :
    (∃ r ∈ regionsWithEfficiency regions_demand, r.region = name)
      ↔ ∃ q ∈ regions_demand, q.1 = name ∧ 0 < q.2.2.1 := by
  unfold regionsWithEfficiency
  constructor
  · rintro ⟨r, hr, rfl⟩
    obtain ⟨q, hq, hfq⟩ := List.mem_filterMap.mp hr
    by_cases hpos : 0 < q.2.2.1
    · rw [if_pos hpos] at hfq
      cases hfq
      exact ⟨q, hq, rfl, hpos⟩
    · rw [if_neg hpos] at hfq
      cases hfq
  · rintro ⟨q, hq, rfl, hpos⟩
    exact ⟨_, List.mem_filterMap.mpr ⟨q, hq, by rw [if_pos hpos]⟩, rfl⟩

/-- The demand total over `regions_with_efficiency` is the demand total of
the positive-population regions. -/
theorem rwe_demand_sum (regions_demand : List (String × ℚ × ℚ × ℚ)) :
    ((regionsWithEfficiency regions_demand).map (fun r => r.demanda)).sum
      = ((regions_demand.filter (fun q => decide (0 < q.2.2.1))).map (fun q => q.2.1)).sum := by
  induction regions_demand with
  | nil => rfl
  | cons q rest ih =>
      unfold regionsWithEfficiency at ih ⊢
      rw [List.filterMap_cons, List.filter_cons]
      by_cases hpos : 0 < q.2.2.1
      · rw [if_pos hpos]
        simp only [decide_eq_true hpos, if_true, List.map_cons, List.sum_cons]
        simp [ih]
      · rw [if_neg hpos]
        simp only [decide_eq_false hpos, if_false]
        simp [ih]

/-- C10: in the greedy energy distributor, regions with non-positive
population are silently dropped: the returned `distribution` has an entry
for a name iff some input region with that name has positive population,
and `total_demand` (hence `satisfaction_rate`, which is computed from it)
sums only the demands of positive-population regions. -/
theorem distribution_drops_nonpositive_population
    (regions_demand : List (String × ℚ × ℚ × ℚ)) (available_energy : ℚ) :
    (∀ name : String,
        (∃ kv ∈ (optimize_energy_distribution regions_demand available_energy).distribution,
            kv.1 = name)
          ↔ ∃ q ∈ regions_demand, q.1 = name ∧ 0 < q.2.2.1) ∧
    (optimize_energy_distribution regions_demand available_energy).total_demand
      = ((regions_demand.filter (fun q => decide (0 < q.2.2.1))).map (fun q => q.2.1)).sum := by
  constructor
  · intro name
    have hdist : (optimize_energy_distribution regions_demand available_energy).distribution
        = (((regionsWithEfficiency regions_demand).mergeSort regionLE).foldl
            (fun (acc : List (String × ℚ) × ℚ × ℚ) (rd : RegionInfo) =>
              if acc.2.1 ≤ 0 then (dictInsert acc.1 rd.region 0, acc.2.1, acc.2.2)
              else
                let assigned := min rd.demanda acc.2.1
                (dictInsert acc.1 rd.region assigned, acc.2.1 - assigned,
                  acc.2.2 + assigned))
            ([], available_energy, 0)).1 := rfl
    rw [hdist]
    rw [distFold_keys]
    constructor
    · rintro (⟨r, hr, rfl⟩ | h)
      · exact (rwe_region_names regions_demand r.region).mp
          ⟨r, List.mem_mergeSort.mp hr, rfl⟩
      · simp at h
    · intro h
      obtain ⟨r, hr, hname⟩ := (rwe_region_names regions_demand name).mpr h
      exact Or.inl ⟨r, List.mem_mergeSort.mpr hr, hname⟩
  · exact rwe_demand_sum regions_demand
